import Mathlib

/-!
Shallow embedding of `src/midi/core.rs` (the `poly` drum-pattern compiler core).

Conventions used throughout:
* Rust `u128` newtypes `Tick(u128)` and `Delta(u128)` are modelled as `Nat`
  (their magnitudes in this program never approach `2^128`; the claims under
  study concern the `u32`/`u16`/28-bit conversions, which are modelled with
  explicit `% 2^32`, `% 2^16` and `% 2^28` reductions where they occur in the
  source).
* Rust's `Vec::sort` / `sort_by` is a stable ascending sort.  The `Event`
  comparison defined below is antisymmetric (`cmp a b = .eq` forces `a = b`),
  so every correct ascending sort produces the same list; we use Mathlib's
  `List.insertionSort`, which is computable and stable.
* Panics are modelled with `Option` (`none` = abort).
-/

namespace Poly

/-- Rust `enum Part` from `core.rs` (declaration order: KickDrum, SnareDrum, HiHat,
CrashCymbal). -/
inductive Part where
  | KickDrum
  | SnareDrum
  | HiHat
  | CrashCymbal
deriving DecidableEq, Repr

/-- Discriminant of `Part` in declaration order; Rust's derived `Ord` on a
fieldless enum compares discriminants. -/
def Part.idx : Part → Nat
  | .KickDrum => 0
  | .SnareDrum => 1
  | .HiHat => 2
  | .CrashCymbal => 3

/-- Rust derived `Ord for Part`: comparison of declaration-order
discriminants. -/
def Part.cmp (a b : Part) : Ordering := compare a.idx b.idx

/-- Rust `Part::to_midi_key` from `core.rs` lines 99-109: General-MIDI percussion
key numbers. -/
def Part.to_midi_key : Part → Nat
  | .KickDrum => 36
  | .SnareDrum => 38
  | .HiHat => 46
  | .CrashCymbal => 49

/-- Rust `enum EventType` from `core.rs`. -/
inductive EventType where
  | NoteOn (p : Part)
  | NoteOff (p : Part)
deriving DecidableEq, Repr

/-- Rust `impl Ord for EventType` from `core.rs` lines 72-87, transcribed clause by
clause. -/
def EventType.cmp : EventType → EventType → Ordering
  | .NoteOn a, .NoteOn b => Part.cmp a b
  | .NoteOn a, .NoteOff b =>
    match Part.cmp a b with
    | .eq => .gt
    | ord => ord
  | .NoteOff a, .NoteOn b =>
    match Part.cmp a b with
    | .eq => .lt
    | ord => ord
  | .NoteOff a, .NoteOff b => Part.cmp a b

/-- The instrument carried by an `EventType`. -/
def EventType.part : EventType → Part
  | .NoteOn p => p
  | .NoteOff p => p

/-- Value `1` for `NoteOn`, `0` for `NoteOff`: in the same-instrument tie-break a
`NoteOff` orders before a `NoteOn`. -/
def EventType.onBit : EventType → Nat
  | .NoteOn _ => 1
  | .NoteOff _ => 0

/-- Rust `struct Event<T>` from `core.rs`, at `T = Tick = Delta = Nat`. -/
structure Event where
  tick : Nat
  event_type : EventType
deriving DecidableEq, Repr

/-- The instrument of an event. -/
def Event.part (e : Event) : Part := e.event_type.part

/-- Rust `impl Ord for Event<T>` from `core.rs` lines 143-154: tick first, then
`EventType` comparison. -/
def Event.cmp (a b : Event) : Ordering :=
  if a.tick = b.tick then EventType.cmp a.event_type b.event_type
  else compare a.tick b.tick

/-- The non-strict order induced by `Event.cmp` (what an ascending stable sort
such as Rust's `sort_by` establishes between adjacent elements). -/
def EventLE (a b : Event) : Prop := Event.cmp a b ≠ .gt

instance : DecidableRel EventLE := fun a b => by
  unfold EventLE; infer_instance

/-- Rust `struct EventGrid<T>` from `core.rs`: an event sequence plus the
authoritative length in ticks. -/
structure EventGrid where
  events : List Event
  length : Nat
deriving DecidableEq, Repr

/-- Rust `EventGrid::empty` from `core.rs` lines 335-342. -/
def EventGrid.empty : EventGrid := ⟨[], 0⟩

/-- Rust `impl Add for EventGrid<T>` (`core.rs` lines 205-223): shift every event of
`other` by `self.length`, append, stable-sort by the event order, and add the
lengths. -/
def EventGrid.add (a b : EventGrid) : EventGrid :=
  { events :=
      List.insertionSort EventLE
        (a.events ++ b.events.map (fun e => { e with tick := e.tick + a.length })),
    length := a.length + b.length }

/-- Rust `impl Mul for EventGrid<T>` (`core.rs` lines 225-236): union the two event
lists at their original times, sort, and add the lengths. -/
def EventGrid.mul (a b : EventGrid) : EventGrid :=
  { events := List.insertionSort EventLE (a.events ++ b.events),
    length := a.length + b.length }

/-- The event-list pass of `EventGrid::to_delta` (`core.rs` lines 344-359):
`delta = e.tick - time; time = time + delta`. -/
def toDeltaAux : List Event → Nat → List Event
  | [], _ => []
  | e :: es, time =>
    { tick := e.tick - time, event_type := e.event_type } :: toDeltaAux es (time + (e.tick - time))

/-- Rust `EventGrid::to_delta` (`core.rs` lines 344-359): the result grid starts
from `EventGrid::empty()` and only its `events` field is ever written, so its
`length` stays `0`. -/
def EventGrid.to_delta (g : EventGrid) : EventGrid :=
  { events := toDeltaAux g.events 0, length := 0 }

/-- Constant `TICKS_PER_QUARTER_NOTE` from `core.rs`. -/
def TICKS_PER_QUARTER_NOTE : Nat := 48

/-- Constant `BAR_LIMIT` from `core.rs` line 26: the hard ceiling on the convergence
search, in bars. -/
def BAR_LIMIT : Nat := 1000

/-- Modelled from the spec: `enum BasicLength` is declared in the excluded
`dsl` module; its seven constructors (whole … 64th) are fixed by their uses in
`core.rs` (`BasicLength::to_ticks`). -/
inductive BasicLength where
  | Whole
  | Half
  | Fourth
  | Eighth
  | Sixteenth
  | ThirtySecond
  | SixtyFourth
deriving DecidableEq, Repr

/-- Rust `BasicLength::to_ticks` from `core.rs` lines 367-380 (`u16` arithmetic on
values ≤ 192, far below `2^16`, so plain `Nat` arithmetic is exact). -/
def BasicLength.to_ticks : BasicLength → Nat
  | .Whole => TICKS_PER_QUARTER_NOTE * 4
  | .Half => TICKS_PER_QUARTER_NOTE * 2
  | .Fourth => TICKS_PER_QUARTER_NOTE
  | .Eighth => TICKS_PER_QUARTER_NOTE / 2
  | .Sixteenth => TICKS_PER_QUARTER_NOTE / 4
  | .ThirtySecond => TICKS_PER_QUARTER_NOTE / 8
  | .SixtyFourth => TICKS_PER_QUARTER_NOTE / 16

/-- Modelled from the spec: `enum ModdedLength` (dsl module), plain or dotted,
fixed by its uses in `core.rs`. -/
inductive ModdedLength where
  | Plain (b : BasicLength)
  | Dotted (b : BasicLength)
deriving DecidableEq, Repr

/-- Rust `ModdedLength::to_ticks` from `core.rs` lines 382-394: dotted adds half of
the plain value (integer division). -/
def ModdedLength.to_ticks : ModdedLength → Nat
  | .Plain b => b.to_ticks
  | .Dotted b => b.to_ticks + b.to_ticks / 2

/-- Modelled from the spec: `enum Length` (dsl module): simple, tied (sum of
two modified lengths, §4.1), or triplet; fixed by its uses in `core.rs`. -/
inductive Length where
  | Simple (m : ModdedLength)
  | Tied (a b : ModdedLength)
  | Triplet (m : ModdedLength)
deriving DecidableEq, Repr

/-- Rust `Length::to_ticks` from `core.rs` lines 412-423: triplet is
`straight * 2 / 3` with truncating integer division. -/
def Length.to_ticks : Length → Nat
  | .Simple m => m.to_ticks
  | .Tied a b => a.to_ticks + b.to_ticks
  | .Triplet m => m.to_ticks * 2 / 3

/-- Modelled from the spec: `enum Note` (dsl module): terminal hit or rest. -/
inductive Note where
  | Hit
  | Rest
deriving DecidableEq, Repr

mutual

/-- Modelled from the spec (§6): pattern-AST node — a nested group or a
terminal note (dsl module's `GroupOrNote`, fixed by its uses in `core.rs`). -/
inductive GroupOrNote where
  | SingleGroup (g : Group)
  | SingleNote (n : Note)

/-- Modelled from the spec (§6): a group is an ordered list of children, a
composite length, and a non-negative repeat count (`times`, a `u16` in the
source; its values therefore lie below `2^16`). -/
inductive Group where
  | mk (notes : List GroupOrNote) (length : Length) (times : Nat)

end

/-- The `notes` field of a group. -/
def Group.notes : Group → List GroupOrNote
  | .mk n _ _ => n

/-- The `length` field of a group. -/
def Group.glength : Group → Length
  | .mk _ l _ => l

/-- The `times` field of a group. -/
def Group.times : Group → Nat
  | .mk _ _ t => t

/-- The loop of `cycle_grid`: append `n` copies of the grid onto the empty
grid, one `+` per iteration. -/
def cycleAppend (event_grid : EventGrid) (n : Nat) : EventGrid :=
  (List.range n).foldl (fun grid _ => grid.add event_grid) EventGrid.empty

/-- Rust `cycle_grid` from `core.rs` lines 533-539: concatenate copies of the
grid onto the empty grid, one `+` per iteration of `for _ in 1..(times.0 + 1)`.
The loop bound `times.0 + 1` is computed in `u16`, so it wraps modulo `2^16`:
at `times = 65535` the bound wraps to `0`, the range `1..0` is empty, and the
result is the empty grid (a debug build panics on that addition instead; we
model the release wrap).  A Rust range `1..b` performs `b - 1` iterations,
`0` when `b = 0`, which is `Nat` truncated subtraction. -/
def cycle_grid (event_grid : EventGrid) (times : Nat) : EventGrid :=
  cycleAppend event_grid ((times + 1) % 2 ^ 16 - 1)

mutual

/-- Rust `flatten_group` from `core.rs` lines 456-499: fold the children through
the cursor, sort the accumulated events, then repeat `times` times.  Returns
the grid together with the final cursor (the Rust version mutates `start`
in place). -/
def flatten_group (g : Group) (part : Part) (start : Nat) : EventGrid × Nat :=
  match g with
  | .mk notes length times =>
    let note_length := length.to_ticks
    let res := flatten_entries notes part note_length EventGrid.empty start
    (cycle_grid ⟨List.insertionSort EventLE res.1.events, res.1.length⟩ times, res.2)

/-- The `notes.iter().for_each(...)` loop body of `flatten_group`
(`core.rs` lines 468-496), threading `(grid, time)` through the children. -/
def flatten_entries (entries : List GroupOrNote) (part : Part) (note_length : Nat)
    (grid : EventGrid) (time : Nat) : EventGrid × Nat :=
  match entries with
  | [] => (grid, time)
  | .SingleGroup sub :: rest =>
    let eg := flatten_group sub part time
    flatten_entries rest part note_length
      ⟨grid.events ++ eg.1.events, grid.length + eg.1.length⟩ eg.2
  | .SingleNote .Rest :: rest =>
    let rest_end := time + note_length
    flatten_entries rest part note_length ⟨grid.events, rest_end⟩ rest_end
  | .SingleNote .Hit :: rest =>
    let note_end := time + note_length
    flatten_entries rest part note_length
      ⟨grid.events ++ [⟨time, .NoteOn part⟩, ⟨note_end, .NoteOff part⟩], note_end⟩ note_end

end

/-- Rust `flatten_groups` from `core.rs` lines 585-592: concatenate the flattening
of each top-level group, threading the cursor through all of them. -/
def flatten_groups (part : Part) (groups : List Group) : EventGrid :=
  (groups.foldl
    (fun acc g =>
      let res := flatten_group g part acc.2
      (acc.1.add res.1, res.2))
    ((EventGrid.empty : EventGrid), (0 : Nat))).1

/-- The state of `EventIterator` (`core.rs` lines 594-600): one lazily consumed
event sequence per instrument (the unread remainder of each `Peekable`
iterator). -/
structure MergeState where
  kick : List Event
  snare : List Event
  hihat : List Event
  crash : List Event
deriving DecidableEq, Repr

/-- The sequence belonging to one instrument slot of the merge state. -/
def MergeState.slot (s : MergeState) : Part → List Event
  | .KickDrum => s.kick
  | .SnareDrum => s.snare
  | .HiHat => s.hihat
  | .CrashCymbal => s.crash

/-- Advance one instrument's iterator (`self.kick.next()` etc.). -/
def MergeState.pop (s : MergeState) : Part → MergeState
  | .KickDrum => { s with kick := s.kick.tail }
  | .SnareDrum => { s with snare := s.snare.tail }
  | .HiHat => { s with hihat := s.hihat.tail }
  | .CrashCymbal => { s with crash := s.crash.tail }

/-- The `candidates` map of `EventIterator::next` (`core.rs` lines 630-641):
the current head of every non-exhausted source, keyed by instrument in
`Part` order (a `BTreeMap` iterates in ascending key order, and the array it
is collected from is already in that order). -/
def candidates (s : MergeState) : List (Part × Event) :=
  ([(Part.KickDrum, s.kick.head?), (Part.SnareDrum, s.snare.head?),
    (Part.HiHat, s.hihat.head?), (Part.CrashCymbal, s.crash.head?)]).filterMap
    (fun pc =>
      match pc.2 with
      | some e => some (pc.1, e)
      | none => none)

/-- Rust `min_by_key(|(_, x)| *x)` over the candidates: the first element attaining
the minimum event (Rust's `Iterator::min_by_key` keeps the earliest of equal
minima), i.e. replace the running best only on strictly smaller events. -/
def pickMin : List (Part × Event) → Option (Part × Event)
  | [] => none
  | c :: cs =>
    some (cs.foldl (fun best x => if Event.cmp x.2 best.2 = .lt then x else best) c)

/-- One step of `EventIterator::next` (`core.rs` lines 629-654): yield the
minimal head event and advance only its source iterator. -/
def mergeNext (s : MergeState) : Option (Event × MergeState) :=
  match pickMin (candidates s) with
  | none => none
  | some pe => some (pe.2, s.pop pe.1)

/-- Total number of unread events across the four sources. -/
def MergeState.total (s : MergeState) : Nat :=
  s.kick.length + s.snare.length + s.hihat.length + s.crash.length

/-- Fuel-driven unrolling of the merge loop.  Each successful `mergeNext`
step removes exactly one event from the state, so `MergeState.total` fuel is
exactly enough to exhaust every source; `mergeAll_eq` below recovers the
fuel-free loop equation of `EventIterator`. -/
def mergeFuel : Nat → MergeState → List Event
  | 0, _ => []
  | n + 1, s =>
    match mergeNext s with
    | none => []
    | some es => es.1 :: mergeFuel n es.2

/-- The full run of `EventIterator` (`core.rs` lines 625-655): repeatedly
yield the minimal head until every source is exhausted. -/
def mergeAll (s : MergeState) : List Event := mergeFuel s.total s

/-- The per-instrument total pattern length in 128th notes:
`x.0.iter().fold(0, |acc, n| acc + n.to_128th())` from `core.rs` lines
729-732, with the `u32` accumulator reduced mod `2^32` at each addition.
`gLen` stands for the excluded dsl collaborator `KnownLength::to_128th`. -/
def total_128th (gLen : Group → Nat) (gs : List Group) : Nat :=
  gs.foldl (fun acc g => (acc + gLen g) % 2 ^ 32) 0

/-- The same fold without the `u32` wrap — the mathematical total length used
to state the claims; it agrees with `total_128th` whenever it is `< 2^32`. -/
def plain_total (gLen : Group → Nat) (gs : List Group) : Nat :=
  gs.foldl (fun acc g => acc + gLen g) 0

/-- Rust `converges_over_bars` (`core.rs` lines 734-736):
`time_signature.converges(...).unwrap_or(BAR_LIMIT)`.  The convergence query
itself lives in the excluded `midi::time` module, so its result is a
parameter. -/
def converges_over_bars (convergesQ : Option Nat) : Nat :=
  convergesQ.getD BAR_LIMIT

/-- Rust `length_limit = converges_over_bars * time_signature.to_128th()`
(`core.rs` line 738), a `u32` product. -/
def length_limit (convergesQ : Option Nat) (bar128 : Nat) : Nat :=
  (converges_over_bars convergesQ * bar128) % 2 ^ 32

/-- One arm of the per-instrument planning `match` in `flatten_and_merge`
(`core.rs` lines 739-786): flatten the instrument's groups and compute
`number_of_groups * (length_limit / length_128th)`. -/
def part_plan (gLen : Group → Nat) (limit : Nat) (p : Part) :
    Option (List Group) → EventGrid × Nat
  | some gs =>
    let length_128th := total_128th gLen gs
    let number_of_groups := gs.length
    let times := limit / length_128th
    (flatten_groups p gs, number_of_groups * times)
  | none => (EventGrid.empty, 0)

/-- Rust `flatten_and_merge` from `core.rs` lines 725-795.  `partGroups` is the
instrument-to-pattern map; `gLen`, `convergesQ` and `bar128` stand for the
excluded collaborators (`KnownLength::to_128th`, `TimeSignature::converges`,
`TimeSignature::to_128th`).  The repeat counts are wrapped into a `u16`
(`Times(kick_repeats as u16)`), hence the `% 2^16`. -/
def flatten_and_merge (partGroups : Part → Option (List Group)) (gLen : Group → Nat)
    (convergesQ : Option Nat) (bar128 : Nat) : List Event :=
  let limit := length_limit convergesQ bar128
  let kick := part_plan gLen limit .KickDrum (partGroups .KickDrum)
  let snare := part_plan gLen limit .SnareDrum (partGroups .SnareDrum)
  let hihat := part_plan gLen limit .HiHat (partGroups .HiHat)
  let crash := part_plan gLen limit .CrashCymbal (partGroups .CrashCymbal)
  mergeAll
    { kick := (cycle_grid kick.1 (kick.2 % 2 ^ 16)).events,
      snare := (cycle_grid snare.1 (snare.2 % 2 ^ 16)).events,
      hihat := (cycle_grid hihat.1 (hihat.2 % 2 ^ 16)).events,
      crash := (cycle_grid crash.1 (crash.2 % 2 ^ 16)).events }

/-- The kinds of track events that `create_tracks` emits (the subset of
`midly::TrackEventKind` this program uses). -/
inductive TrackKind where
  | ProgramChange (program : Nat)
  | TrackName
  | InstrumentName
  | MidiChannel (c : Nat)
  | MidiPort (p : Nat)
  | Tempo (t : Nat)
  | TimeSig (numerator denominatorLog2 clocks sub32 : Nat)
  | Midi (channel : Nat) (isNoteOn : Bool) (key : Nat) (vel : Nat)
  | EndOfTrack
deriving DecidableEq, Repr

/-- Type `midly::TrackEvent`: a delta time plus an event kind. -/
structure TrackEvent where
  delta : Nat
  kind : TrackKind
deriving DecidableEq, Repr

/-- The delta written into a note `TrackEvent` (`core.rs` line 995):
`u28::from(event.tick.0 as u32)` — the `u128` delta is cast to `u32`
(truncating mod `2^32`) and then converted to midly's 28-bit varint type
(which keeps the low 28 bits). -/
def emit_delta (d : Nat) : Nat := d % 2 ^ 32 % 2 ^ 28

/-- The note-message loop of `create_tracks` (`core.rs` lines 983-1001):
one NoteOn/NoteOff MIDI message per delta-converted event, on channel 10 with
velocity 127 and the instrument's percussion key. -/
def note_track_events (events : List Event) : List TrackEvent :=
  events.map (fun e =>
    { delta := emit_delta e.tick,
      kind :=
        match e.event_type with
        | .NoteOn part => .Midi 10 true part.to_midi_key 127
        | .NoteOff part => .Midi 10 false part.to_midi_key 127 })

/-- Rust `create_tracks` from `core.rs` lines 919-1008, modelled from the point
where the merged stream has been collected (line 926; the merged stream is
this function's `events` argument).  An empty merged stream panics
(`"Result has no midi notes"`), modelled as `none`; otherwise the single
drum track is the fixed preamble, the tempo and meter meta events, one MIDI
message per delta-converted event, and a closing end-of-track marker that
repeats the last delta. -/
def create_tracks (events : List Event) (tsNumerator tsDenominatorLog2 : Nat)
    (midi_tempo : Nat) : Option (List (List TrackEvent)) :=
  match events.getLast? with
  | none => none
  | some lastEv =>
    let event_grid_tick : EventGrid := { events := events, length := lastEv.tick }
    let event_grid := event_grid_tick.to_delta
    let drums : List TrackEvent :=
      [⟨0, .ProgramChange 0⟩, ⟨0, .TrackName⟩, ⟨0, .InstrumentName⟩,
        ⟨0, .MidiChannel 10⟩, ⟨0, .MidiPort 10⟩, ⟨0, .Tempo midi_tempo⟩,
        ⟨0, .TimeSig tsNumerator tsDenominatorLog2 24 8⟩] ++
        note_track_events event_grid.events
    some [drums ++ [⟨(drums.getLast?.getD ⟨0, .EndOfTrack⟩).delta, .EndOfTrack⟩]]

/-- The per-event deltas that `to_delta` computes for a merged stream (the
`length` field of the grid is irrelevant to them). -/
def computed_deltas (events : List Event) : List Nat :=
  (toDeltaAux events 0).map (·.tick)

/-- The deltas carried by the note messages of the emitted drum track (the
track events after the 7-element preamble and before the end-of-track
marker). -/
def emitted_note_deltas (events : List Event) (tsNumerator tsDenominatorLog2 : Nat)
    (midi_tempo : Nat) : Option (List Nat) :=
  (create_tracks events tsNumerator tsDenominatorLog2 midi_tempo).map
    (fun tracks => (((tracks.headD []).drop 7).dropLast).map (·.delta))

/-- Cumulative (prefix) sums of a delta list starting from `acc`. -/
def prefixSums (acc : Nat) : List Nat → List Nat
  | [] => []
  | d :: ds => (acc + d) :: prefixSums (acc + d) ds

/-- Scenario A's group: "repeat twice: one eighth-note hit followed by two
eighth-note rests" (the parse of `"(2,8x--)"` used by `test_flatten_group`
in `core.rs`). -/
def scenarioA : Group :=
  .mk [.SingleNote .Hit, .SingleNote .Rest, .SingleNote .Rest] (.Simple (.Plain .Eighth)) 2

/-- A whole-note rest repeated 65534 times — the largest repeat count at which
the `u16` loop bound of `cycle_grid` does not overflow, so the loop really
performs all 65534 iterations. -/
def bigRest : Group := .mk [.SingleNote .Rest] (.Simple (.Plain .Whole)) 65534

/-- The rest block above nested in another 65534-fold repeat: a silent span of
`65534 * 65534 * 192 = 824583389952` ticks. -/
def bigRestNest : Group := .mk [.SingleGroup bigRest] (.Simple (.Plain .Fourth)) 65534

/-- A pattern whose second top-level group places one quarter-note hit after
the huge silent span, producing a delta far above `2^28`. -/
def bigPattern : List Group :=
  [bigRestNest, .mk [.SingleNote .Hit] (.Simple (.Plain .Fourth)) 1]

/-! ## Properties of the event order -/

theorem compare_nat_ne_gt {m n : Nat} : compare m n ≠ Ordering.gt ↔ m ≤ n := by
  rcases Nat.lt_trichotomy m n with h | h | h
  · rw [Nat.compare_eq_lt.2 h]; simp; omega
  · subst h; rw [Nat.compare_eq_eq.2 rfl]; simp
  · rw [Nat.compare_eq_gt.2 h]; simp; omega

theorem match_eq_gt_ne_gt {m n : Nat} :
    (match compare m n with | Ordering.eq => Ordering.gt | o => o) ≠ Ordering.gt ↔ m < n := by
  rcases Nat.lt_trichotomy m n with h | h | h
  · rw [Nat.compare_eq_lt.2 h]; simp; omega
  · subst h; rw [Nat.compare_eq_eq.2 rfl]; simp
  · rw [Nat.compare_eq_gt.2 h]; simp; omega

theorem match_eq_lt_ne_gt {m n : Nat} :
    (match compare m n with | Ordering.eq => Ordering.lt | o => o) ≠ Ordering.gt ↔ m ≤ n := by
  rcases Nat.lt_trichotomy m n with h | h | h
  · rw [Nat.compare_eq_lt.2 h]; simp; omega
  · subst h; rw [Nat.compare_eq_eq.2 rfl]; simp
  · rw [Nat.compare_eq_gt.2 h]; simp; omega

theorem Part.cmp_eq_iff (a b : Part) : Part.cmp a b = .eq ↔ a = b := by
  cases a <;> cases b <;> simp [Part.cmp, Part.idx] <;> decide

theorem Part.idx_inj {a b : Part} (h : a.idx = b.idx) : a = b := by
  cases a <;> cases b <;> simp [Part.idx] at h ⊢

/-- Characterisation of `Event.cmp ≠ .gt` as a lexicographic comparison of
`(tick, instrument index, on-bit)`. -/
theorem EventLE_iff (a b : Event) :
    EventLE a b ↔
      (a.tick < b.tick ∨
        (a.tick = b.tick ∧
          (a.part.idx < b.part.idx ∨
            (a.part.idx = b.part.idx ∧ a.event_type.onBit ≤ b.event_type.onBit)))) := by
  obtain ⟨ta, ea⟩ := a
  obtain ⟨tb, eb⟩ := b
  simp only [EventLE, Event.cmp, Event.part]
  by_cases ht : ta = tb
  · subst ht
    cases ea <;> cases eb <;>
      simp [EventType.cmp, Part.cmp, EventType.part, EventType.onBit,
        compare_nat_ne_gt, match_eq_gt_ne_gt, match_eq_lt_ne_gt] <;>
      omega
  · rw [if_neg ht]
    rcases Nat.lt_trichotomy ta tb with h | h | h
    · rw [Nat.compare_eq_lt.2 h]; simp; omega
    · exact absurd h ht
    · rw [Nat.compare_eq_gt.2 h]; simp; omega

instance : IsTotal Event EventLE :=
  ⟨fun a b => by rw [EventLE_iff, EventLE_iff]; omega⟩

instance : IsTrans Event EventLE :=
  ⟨fun a b c hab hbc => by
    rw [EventLE_iff] at hab hbc ⊢
    omega⟩

/-- Fact that `Event.cmp a b = .eq` forces `a = b`: the order is antisymmetric, so any
two ascending sorts of the same multiset coincide. -/
theorem Event.eq_of_le_of_le {a b : Event} (h₁ : EventLE a b) (h₂ : EventLE b a) : a = b := by
  rw [EventLE_iff] at h₁ h₂
  obtain ⟨ta, ea⟩ := a
  obtain ⟨tb, eb⟩ := b
  simp only [Event.part, EventType.part] at h₁ h₂
  have ht : ta = tb := by omega
  subst ht
  cases ea <;> cases eb <;>
    simp_all only [EventType.part, EventType.onBit, Event.mk.injEq, EventType.NoteOn.injEq,
      EventType.NoteOff.injEq, true_and] <;>
    first
      | omega
      | (apply Part.idx_inj; omega)

/-! ## Properties of the merge -/

theorem pickMin_mem : ∀ {l : List (Part × Event)} {c : Part × Event},
    pickMin l = some c → c ∈ l := by
  have aux : ∀ (cs : List (Part × Event)) (c : Part × Event),
      cs.foldl (fun best x => if Event.cmp x.2 best.2 = .lt then x else best) c ∈ c :: cs := by
    intro cs
    induction cs with
    | nil => intro c; simp
    | cons x cs ih =>
      intro c
      simp only [List.foldl_cons]
      rcases List.mem_cons.1 (ih (if Event.cmp x.2 c.2 = .lt then x else c)) with h | h
      · rw [h]
        by_cases hc : Event.cmp x.2 c.2 = .lt <;> simp [hc]
      · simp [List.mem_cons, h]
  intro l c h
  cases l with
  | nil => simp [pickMin] at h
  | cons x xs =>
    simp only [pickMin, Option.some.injEq] at h
    rw [← h]
    exact aux xs x

theorem candidates_mem {s : MergeState} {p : Part} {e : Event}
    (h : (p, e) ∈ candidates s) : (s.slot p).head? = some e := by
  simp only [candidates, List.mem_filterMap, List.mem_cons, List.not_mem_nil, or_false] at h
  obtain ⟨pc, hpc, hmatch⟩ := h
  rcases hpc with h1 | h1 | h1 | h1 <;> subst h1
  · cases hk : s.kick.head? <;> rw [hk] at hmatch <;> simp at hmatch
    obtain ⟨hp, he⟩ := hmatch
    subst hp; subst he; simpa [MergeState.slot] using hk
  · cases hk : s.snare.head? <;> rw [hk] at hmatch <;> simp at hmatch
    obtain ⟨hp, he⟩ := hmatch
    subst hp; subst he; simpa [MergeState.slot] using hk
  · cases hk : s.hihat.head? <;> rw [hk] at hmatch <;> simp at hmatch
    obtain ⟨hp, he⟩ := hmatch
    subst hp; subst he; simpa [MergeState.slot] using hk
  · cases hk : s.crash.head? <;> rw [hk] at hmatch <;> simp at hmatch
    obtain ⟨hp, he⟩ := hmatch
    subst hp; subst he; simpa [MergeState.slot] using hk

theorem mergeNext_spec {s : MergeState} {e : Event} {s' : MergeState}
    (h : mergeNext s = some (e, s')) :
    ∃ p, (s.slot p).head? = some e ∧ s' = s.pop p := by
  simp only [mergeNext] at h
  cases hp : pickMin (candidates s) with
  | none => rw [hp] at h; simp at h
  | some pe =>
    rw [hp] at h
    simp only [Option.some.injEq, Prod.mk.injEq] at h
    obtain ⟨he, hs⟩ := h
    refine ⟨pe.1, ?_, hs.symm⟩
    rw [← he]
    exact candidates_mem (pickMin_mem hp)

theorem slot_pop_same (s : MergeState) (p : Part) :
    (s.pop p).slot p = (s.slot p).tail := by
  cases p <;> rfl

theorem slot_pop_other (s : MergeState) {p q : Part} (h : q ≠ p) :
    (s.pop p).slot q = s.slot q := by
  cases p <;> cases q <;> first | rfl | exact absurd rfl h

theorem mergeNext_total_exact {s : MergeState} {e : Event} {s' : MergeState}
    (h : mergeNext s = some (e, s')) : s.total = s'.total + 1 := by
  obtain ⟨p, hhead, hpop⟩ := mergeNext_spec h
  subst hpop
  cases p
  · simp only [MergeState.slot] at hhead
    cases hk : s.kick with
    | nil => rw [hk] at hhead; simp at hhead
    | cons a t => simp [MergeState.total, MergeState.pop, hk]; omega
  · simp only [MergeState.slot] at hhead
    cases hk : s.snare with
    | nil => rw [hk] at hhead; simp at hhead
    | cons a t => simp [MergeState.total, MergeState.pop, hk]; omega
  · simp only [MergeState.slot] at hhead
    cases hk : s.hihat with
    | nil => rw [hk] at hhead; simp at hhead
    | cons a t => simp [MergeState.total, MergeState.pop, hk]; omega
  · simp only [MergeState.slot] at hhead
    cases hk : s.crash with
    | nil => rw [hk] at hhead; simp at hhead
    | cons a t => simp [MergeState.total, MergeState.pop, hk]; omega

theorem mergeFuel_none {n : Nat} {s : MergeState} (h : mergeNext s = none) :
    mergeFuel n s = [] := by
  cases n with
  | zero => rfl
  | succ m => simp [mergeFuel, h]

/-- The loop equation of `EventIterator`: the fuelled merge with exactly
`total` fuel satisfies the natural recursion. -/
theorem mergeAll_eq (s : MergeState) :
    mergeAll s = match mergeNext s with
      | none => []
      | some es => es.1 :: mergeAll es.2 := by
  unfold mergeAll
  cases hm : mergeNext s with
  | none => exact mergeFuel_none hm
  | some es =>
    rw [mergeNext_total_exact hm]
    simp [mergeFuel, hm]

theorem mergeNext_eq_none {s : MergeState} (h : mergeNext s = none) :
    s.kick = [] ∧ s.snare = [] ∧ s.hihat = [] ∧ s.crash = [] := by
  simp only [mergeNext] at h
  cases hp : pickMin (candidates s) with
  | some pe => rw [hp] at h; simp at h
  | none =>
    have hc : candidates s = [] := by
      cases hcs : candidates s with
      | nil => rfl
      | cons c cs => rw [hcs] at hp; simp [pickMin] at hp
    refine ⟨?_, ?_, ?_, ?_⟩
    · cases hk : s.kick with
      | nil => rfl
      | cons a t => simp [candidates, hk] at hc
    · cases hk : s.snare with
      | nil => rfl
      | cons a t => simp [candidates, hk] at hc
    · cases hk : s.hihat with
      | nil => rfl
      | cons a t => simp [candidates, hk] at hc
    · cases hk : s.crash with
      | nil => rfl
      | cons a t => simp [candidates, hk] at hc

theorem mergeAll_filter_aux : ∀ (n : Nat) (s : MergeState), s.total = n →
    (∀ p, ∀ e ∈ s.slot p, e.part = p) → ∀ q : Part,
    (mergeAll s).filter (fun e => decide (e.part = q)) = s.slot q := by
  intro n
  induction n using Nat.strong_induction_on with
  | _ n ih =>
    intro s hn hs q
    rw [mergeAll_eq]
    cases hm : mergeNext s with
    | none =>
      obtain ⟨h1, h2, h3, h4⟩ := mergeNext_eq_none hm
      cases q <;> simp [MergeState.slot, h1, h2, h3, h4]
    | some es =>
      obtain ⟨p, hhead, hpop⟩ := mergeNext_spec hm
      have hlt : es.2.total < n := by
        have := mergeNext_total_exact hm
        omega
      have hs' : ∀ r, ∀ e ∈ es.2.slot r, e.part = r := by
        intro r e he
        apply hs r
        rw [hpop] at he
        by_cases hrp : r = p
        · subst hrp
          rw [slot_pop_same] at he
          exact List.mem_of_mem_tail he
        · rw [slot_pop_other _ hrp] at he
          exact he
      have hIH := ih es.2.total hlt es.2 rfl hs' q
      have hpart : es.1.part = p := by
        apply hs p
        cases hc : s.slot p with
        | nil => rw [hc] at hhead; simp at hhead
        | cons a t =>
          rw [hc] at hhead
          simp at hhead
          simp [hc, hhead]
      cases hc : s.slot p with
      | nil => rw [hc] at hhead; simp at hhead
      | cons a t =>
        rw [hc] at hhead
        simp only [List.head?_cons, Option.some.injEq] at hhead
        by_cases hq : q = p
        · subst hq
          have hpred : (decide (es.1.part = q)) = true := by simp [hpart]
          simp only [List.filter_cons, hpred, if_true]
          rw [hIH, hpop, slot_pop_same, hc]
          simp [hhead]
        · have hpred : (decide (es.1.part = q)) = false := by
            simp only [decide_eq_false_iff_not]
            intro hcontra
            exact hq (by rw [← hcontra, hpart])
          simp only [List.filter_cons, hpred, if_false]
          rw [hIH, hpop, slot_pop_other _ hq]
          simp

/-! ## Properties of the grid algebra -/

theorem add_events_sorted (a b : EventGrid) : (a.add b).events.Sorted EventLE :=
  List.sorted_insertionSort EventLE _

theorem mul_events_sorted (a b : EventGrid) : (a.mul b).events.Sorted EventLE :=
  List.sorted_insertionSort EventLE _

theorem cycleAppend_succ (g : EventGrid) (n : Nat) :
    cycleAppend g (n + 1) = (cycleAppend g n).add g := by
  unfold cycleAppend
  rw [List.range_succ, List.foldl_append]
  rfl

theorem cycleAppend_sorted (g : EventGrid) (n : Nat) :
    (cycleAppend g n).events.Sorted EventLE := by
  cases n with
  | zero => exact List.sorted_nil
  | succ m => rw [cycleAppend_succ]; exact add_events_sorted _ _

/-- For a repeat count below `65535` the `u16` loop bound `times + 1` does not
wrap and the loop performs exactly `times` iterations. -/
theorem cycle_iterations_of_lt {times : Nat} (h : times < 65535) :
    (times + 1) % 2 ^ 16 - 1 = times := by
  rw [Nat.mod_eq_of_lt (by omega)]
  omega

theorem cycle_grid_eq_append (g : EventGrid) {times : Nat} (h : times < 65535) :
    cycle_grid g times = cycleAppend g times := by
  unfold cycle_grid
  rw [cycle_iterations_of_lt h]

/-- At `times = 65535` the `u16` loop bound wraps to `0` and `cycle_grid`
returns the empty grid. -/
theorem cycle_grid_wrap (g : EventGrid) : cycle_grid g 65535 = EventGrid.empty := by
  unfold cycle_grid
  norm_num
  simp [cycleAppend]

theorem cycle_grid_zero (g : EventGrid) : cycle_grid g 0 = EventGrid.empty := by
  rw [cycle_grid_eq_append g (by norm_num)]
  simp [cycleAppend]

theorem cycle_grid_sorted (g : EventGrid) (times : Nat) :
    (cycle_grid g times).events.Sorted EventLE :=
  cycleAppend_sorted g _

theorem shift_zero (e : Event) : ({ e with tick := e.tick + 0 } : Event) = e := by
  cases e; rfl

/-- Concatenating onto the empty grid is the identity on grids whose events
are already sorted. -/
theorem empty_add (g : EventGrid) (h : g.events.Sorted EventLE) :
    EventGrid.empty.add g = g := by
  unfold EventGrid.add EventGrid.empty
  cases g with
  | mk ev len =>
    simp only [List.nil_append, List.map]
    have hmap : ev.map (fun e => ({ e with tick := e.tick + 0 } : Event)) = ev := by
      calc ev.map (fun e => ({ e with tick := e.tick + 0 } : Event))
        _ = ev.map id := List.map_congr_left (fun e _ => shift_zero e)
        _ = ev := List.map_id ev
    rw [hmap, List.Sorted.insertionSort_eq h]
    simp

theorem cycle_grid_one (g : EventGrid) (h : g.events.Sorted EventLE) :
    cycle_grid g 1 = g := by
  rw [cycle_grid_eq_append g (by norm_num), cycleAppend_succ]
  show (cycleAppend g 0).add g = g
  exact empty_add g h

theorem cycleAppend_length (g : EventGrid) (n : Nat) :
    (cycleAppend g n).length = n * g.length := by
  induction n with
  | zero => simp [cycleAppend, EventGrid.empty]
  | succ m ih =>
    rw [cycleAppend_succ]
    show (cycleAppend g m).length + g.length = (m + 1) * g.length
    rw [ih, Nat.succ_mul]

theorem cycle_grid_length (g : EventGrid) {n : Nat} (h : n < 65535) :
    (cycle_grid g n).length = n * g.length := by
  rw [cycle_grid_eq_append g h]
  exact cycleAppend_length g n

/-- Appending copies of a grid with no events yields no events and multiplies
the length. -/
theorem cycleAppend_no_events (L n : Nat) :
    cycleAppend ⟨[], L⟩ n = ⟨[], n * L⟩ := by
  induction n with
  | zero => simp [cycleAppend, EventGrid.empty]
  | succ m ih =>
    rw [cycleAppend_succ, ih]
    unfold EventGrid.add
    simp [Nat.succ_mul]

/-- Cycling a grid with no events: the length is multiplied by the wrapped
iteration count. -/
theorem cycle_grid_no_events (L times : Nat) :
    cycle_grid ⟨[], L⟩ times = ⟨[], ((times + 1) % 2 ^ 16 - 1) * L⟩ := by
  unfold cycle_grid
  exact cycleAppend_no_events L _

/-! ## Properties of delta conversion -/

theorem toDeltaAux_event_types : ∀ (es : List Event) (time : Nat),
    (toDeltaAux es time).map (·.event_type) = es.map (·.event_type)
  | [], _ => rfl
  | e :: es, time => by
    simp [toDeltaAux, toDeltaAux_event_types es]

theorem toDeltaAux_length : ∀ (es : List Event) (time : Nat),
    (toDeltaAux es time).length = es.length
  | [], _ => rfl
  | e :: es, time => by
    simp [toDeltaAux, toDeltaAux_length es]

/-- On a run whose ticks are non-decreasing and start at or after `time`,
the prefix sums of the deltas from `time` reconstruct the ticks. -/
theorem toDeltaAux_prefixSums : ∀ (es : List Event) (time : Nat),
    List.Chain' (· ≤ ·) (time :: es.map (·.tick)) →
    prefixSums time ((toDeltaAux es time).map (·.tick)) = es.map (·.tick)
  | [], _, _ => rfl
  | e :: es, time, h => by
    rw [List.map_cons, List.chain'_cons] at h
    obtain ⟨h1, h2⟩ := h
    have ht : time + (e.tick - time) = e.tick := by omega
    simp only [toDeltaAux, List.map_cons, prefixSums, ht]
    rw [toDeltaAux_prefixSums es e.tick (by simpa using h2)]

theorem EventLE.tick_le {a b : Event} (h : EventLE a b) : a.tick ≤ b.tick := by
  rw [EventLE_iff] at h
  omega

/-! ## Properties of the planner arithmetic -/

theorem foldl_add_eq (gLen : Group → Nat) :
    ∀ (gs : List Group) (acc : Nat),
      gs.foldl (fun a g => a + gLen g) acc = acc + plain_total gLen gs := by
  intro gs
  induction gs with
  | nil => intro acc; simp [plain_total]
  | cons g gs ih =>
    intro acc
    simp only [List.foldl_cons, plain_total]
    rw [ih (acc + gLen g), ih (0 + gLen g)]
    omega

theorem total_128th_eq (gLen : Group → Nat) (gs : List Group)
    (h : plain_total gLen gs < 2 ^ 32) : total_128th gLen gs = plain_total gLen gs := by
  have aux : ∀ (l : List Group) (acc : Nat),
      acc + plain_total gLen l < 2 ^ 32 →
      l.foldl (fun a g => (a + gLen g) % 2 ^ 32) acc = l.foldl (fun a g => a + gLen g) acc := by
    intro l
    induction l with
    | nil => intro acc _; rfl
    | cons g l ihl =>
      intro acc hacc
      have hplain : plain_total gLen (g :: l) = gLen g + plain_total gLen l := by
        simp only [plain_total, List.foldl_cons]
        rw [foldl_add_eq gLen l (0 + gLen g), foldl_add_eq gLen l 0]
        omega
      rw [hplain] at hacc
      have hsmall : acc + gLen g < 2 ^ 32 := by omega
      simp only [List.foldl_cons, Nat.mod_eq_of_lt hsmall]
      exact ihl (acc + gLen g) (by omega)
  have := aux gs 0 (by omega)
  simpa [total_128th, plain_total] using this

/-! ## The claims -/

theorem EventType.cmp_of_part_ne {t₁ t₂ : EventType} (h : t₁.part ≠ t₂.part) :
    EventType.cmp t₁ t₂ = Part.cmp t₁.part t₂.part := by
  cases t₁ <;> cases t₂ <;> simp only [EventType.part] at h ⊢ <;>
    simp only [EventType.cmp] <;>
    (have hne : Part.cmp _ _ ≠ .eq := fun hc => h ((Part.cmp_eq_iff _ _).1 hc)
     cases hcc : Part.cmp _ _ <;> simp_all)

/-- C1: the total order on events compares by time first; for events at equal
time with different instruments it compares by the fixed instrument
declaration order (KickDrum, SnareDrum, HiHat, CrashCymbal); and for two
events at equal time on the same instrument, a NoteOff orders strictly before
a NoteOn. -/
theorem claim_C1 (e₁ e₂ : Event) :
    (e₁.tick ≠ e₂.tick → Event.cmp e₁ e₂ = compare e₁.tick e₂.tick) ∧
    (e₁.tick = e₂.tick → e₁.part ≠ e₂.part →
      Event.cmp e₁ e₂ = Part.cmp e₁.part e₂.part) ∧
    (∀ p : Part, e₁.tick = e₂.tick → e₁.event_type = .NoteOff p →
      e₂.event_type = .NoteOn p → Event.cmp e₁ e₂ = .lt) := by
  refine ⟨?_, ?_, ?_⟩
  · intro ht
    simp [Event.cmp, ht]
  · intro ht hp
    simp only [Event.cmp, ht, if_pos rfl]
    exact EventType.cmp_of_part_ne hp
  · intro p ht h1 h2
    simp only [Event.cmp, ht, if_pos rfl, h1, h2, EventType.cmp]
    rw [(Part.cmp_eq_iff p p).2 rfl]
    simp

theorem claim_C1_witness :
    Event.cmp ⟨3, .NoteOn .HiHat⟩ ⟨7, .NoteOn .KickDrum⟩ = compare 3 7 ∧
    Event.cmp ⟨4, .NoteOn .KickDrum⟩ ⟨4, .NoteOff .HiHat⟩ =
      Part.cmp .KickDrum .HiHat ∧
    Event.cmp ⟨5, .NoteOff .SnareDrum⟩ ⟨5, .NoteOn .SnareDrum⟩ = .lt :=
  ⟨(claim_C1 ⟨3, .NoteOn .HiHat⟩ ⟨7, .NoteOn .KickDrum⟩).1 (by decide),
   (claim_C1 ⟨4, .NoteOn .KickDrum⟩ ⟨4, .NoteOff .HiHat⟩).2.1 rfl (by decide),
   (claim_C1 ⟨5, .NoteOff .SnareDrum⟩ ⟨5, .NoteOn .SnareDrum⟩).2.2 .SnareDrum rfl rfl rfl⟩

/-- C4: for all input grids whose events are sorted, the result of every
event-grid algebra operation — concatenation (`Add`), interleave (`Mul`) and
group flattening with repetition — has its events non-decreasing under the
Event total order. -/
theorem claim_C4 (a b : EventGrid) (g : Group) (part : Part) (start : Nat)
    (ha : a.events.Sorted EventLE) (hb : b.events.Sorted EventLE) :
    (a.add b).events.Sorted EventLE ∧
    (a.mul b).events.Sorted EventLE ∧
    (flatten_group g part start).1.events.Sorted EventLE := by
  refine ⟨add_events_sorted a b, mul_events_sorted a b, ?_⟩
  cases g with
  | mk notes length times =>
    simp only [flatten_group]
    exact cycle_grid_sorted _ _

theorem claim_C4_witness :
    (EventGrid.add ⟨[⟨0, .NoteOn .KickDrum⟩, ⟨24, .NoteOff .KickDrum⟩], 48⟩
        ⟨[⟨0, .NoteOn .SnareDrum⟩, ⟨24, .NoteOff .SnareDrum⟩], 48⟩).events.Sorted EventLE ∧
    (flatten_group scenarioA .KickDrum 0).1.events.Sorted EventLE :=
  ⟨(claim_C4 ⟨[⟨0, .NoteOn .KickDrum⟩, ⟨24, .NoteOff .KickDrum⟩], 48⟩
      ⟨[⟨0, .NoteOn .SnareDrum⟩, ⟨24, .NoteOff .SnareDrum⟩], 48⟩ scenarioA .KickDrum 0
      (by decide) (by decide)).1,
   (claim_C4 ⟨[⟨0, .NoteOn .KickDrum⟩, ⟨24, .NoteOff .KickDrum⟩], 48⟩
      ⟨[⟨0, .NoteOn .SnareDrum⟩, ⟨24, .NoteOff .SnareDrum⟩], 48⟩ scenarioA .KickDrum 0
      (by decide) (by decide)).2.2⟩

/-- C5: flattening, from cursor 0 at 48 ticks per quarter note, a group that
repeats twice the sequence of one eighth-note hit followed by two eighth-note
rests yields exactly NoteOn@0, NoteOff@24, NoteOn@72, NoteOff@96 and a grid
length of 144 ticks. -/
theorem claim_C5 :
    (flatten_group scenarioA .KickDrum 0).1 =
      ⟨[⟨0, .NoteOn .KickDrum⟩, ⟨24, .NoteOff .KickDrum⟩,
        ⟨72, .NoteOn .KickDrum⟩, ⟨96, .NoteOff .KickDrum⟩], 144⟩ := by
  simp [scenarioA, flatten_group, flatten_entries, cycle_grid, EventGrid.add, EventGrid.empty,
    Length.to_ticks, ModdedLength.to_ticks, BasicLength.to_ticks, TICKS_PER_QUARTER_NOTE,
    List.range_succ]
  decide

/-- C6 (counterexample): the length law `(cycle_grid g n).length = n * g.length`
fails at `n = 65535`: the `u16` loop bound `times.0 + 1` wraps to `0`
(`for _ in 1..0` runs no iteration in a release build; a debug build panics),
so the program returns the empty grid — length `0`, not `65535 * 48` — and
drops the events as well. -/
theorem claim_C6_counterexample :
    (cycle_grid ⟨[⟨0, .NoteOn .KickDrum⟩, ⟨24, .NoteOff .KickDrum⟩], 48⟩ 65535).length ≠
      65535 * 48 := by
  decide

/-- C6 (amended): cycling a grid zero times yields the empty grid; cycling a
(sorted, per the grid invariant) grid once yields it unchanged; and for every
repeat count `n` below `65535` — the range in which the `u16` loop bound
`times.0 + 1` does not overflow — the length of `cycle_grid g n` is
`n * g.length`. -/
theorem claim_C6_amended (g : EventGrid) (n : Nat) :
    cycle_grid g 0 = EventGrid.empty ∧
    (g.events.Sorted EventLE → cycle_grid g 1 = g) ∧
    (n < 65535 → (cycle_grid g n).length = n * g.length) :=
  ⟨cycle_grid_zero g, cycle_grid_one g, fun h => cycle_grid_length g h⟩

theorem claim_C6_witness :
    cycle_grid ⟨[⟨0, .NoteOn .KickDrum⟩, ⟨24, .NoteOff .KickDrum⟩], 48⟩ 1 =
      ⟨[⟨0, .NoteOn .KickDrum⟩, ⟨24, .NoteOff .KickDrum⟩], 48⟩ ∧
    (cycle_grid ⟨[⟨0, .NoteOn .KickDrum⟩, ⟨24, .NoteOff .KickDrum⟩], 48⟩ 3).length = 3 * 48 :=
  ⟨(claim_C6_amended ⟨[⟨0, .NoteOn .KickDrum⟩, ⟨24, .NoteOff .KickDrum⟩], 48⟩ 3).2.1 (by decide),
   (claim_C6_amended ⟨[⟨0, .NoteOn .KickDrum⟩, ⟨24, .NoteOff .KickDrum⟩], 48⟩ 3).2.2 (by norm_num)⟩

/-- C2: for every set of per-instrument sorted event sequences given to the
merger, the subsequence of the merged output restricted to any one instrument
equals that instrument's own input sequence exactly — the merge never drops,
duplicates, or reorders events belonging to one instrument. -/
theorem claim_C2 (k sn hh cr : List Event)
    (hk : ∀ e ∈ k, e.part = Part.KickDrum)
    (hsn : ∀ e ∈ sn, e.part = Part.SnareDrum)
    (hhh : ∀ e ∈ hh, e.part = Part.HiHat)
    (hcr : ∀ e ∈ cr, e.part = Part.CrashCymbal)
    (hks : k.Sorted EventLE) (hss : sn.Sorted EventLE)
    (hhs : hh.Sorted EventLE) (hcs : cr.Sorted EventLE) (q : Part) :
    (mergeAll ⟨k, sn, hh, cr⟩).filter (fun e => decide (e.part = q)) =
      MergeState.slot ⟨k, sn, hh, cr⟩ q := by
  apply mergeAll_filter_aux (MergeState.total ⟨k, sn, hh, cr⟩) ⟨k, sn, hh, cr⟩ rfl
  intro p e he
  cases p <;> simp only [MergeState.slot] at he
  · exact hk e he
  · exact hsn e he
  · exact hhh e he
  · exact hcr e he

theorem claim_C2_witness :
    (mergeAll ⟨[⟨0, .NoteOn .KickDrum⟩, ⟨48, .NoteOff .KickDrum⟩],
               [⟨48, .NoteOn .SnareDrum⟩, ⟨96, .NoteOff .SnareDrum⟩], [], []⟩).filter
        (fun e => decide (e.part = Part.KickDrum)) =
      [⟨0, .NoteOn .KickDrum⟩, ⟨48, .NoteOff .KickDrum⟩] :=
  claim_C2 [⟨0, .NoteOn .KickDrum⟩, ⟨48, .NoteOff .KickDrum⟩]
    [⟨48, .NoteOn .SnareDrum⟩, ⟨96, .NoteOff .SnareDrum⟩] [] []
    (by decide) (by decide) (by decide) (by decide)
    (by decide) (by decide) (by decide) (by decide) .KickDrum

/-- C7: for every sorted single-stream tick grid, the cumulative (prefix)
sums of the deltas produced by delta conversion reconstruct exactly the
original sequence of absolute tick times, in order. -/
theorem claim_C7 (g : EventGrid) (hs : g.events.Sorted EventLE) :
    prefixSums 0 (g.to_delta.events.map (·.tick)) = g.events.map (·.tick) := by
  show prefixSums 0 ((toDeltaAux g.events 0).map (·.tick)) = g.events.map (·.tick)
  apply toDeltaAux_prefixSums
  refine List.chain'_cons'.2 ⟨fun y _ => Nat.zero_le y, ?_⟩
  rw [List.chain'_map]
  exact List.Chain'.imp (fun a b hab => EventLE.tick_le hab) (List.Pairwise.chain' hs)

theorem claim_C7_witness :
    prefixSums 0
        ((EventGrid.to_delta ⟨[⟨0, .NoteOn .KickDrum⟩, ⟨24, .NoteOff .KickDrum⟩,
          ⟨24, .NoteOn .KickDrum⟩, ⟨48, .NoteOff .KickDrum⟩], 48⟩).events.map (·.tick)) =
      [0, 24, 24, 48] :=
  claim_C7 ⟨[⟨0, .NoteOn .KickDrum⟩, ⟨24, .NoteOff .KickDrum⟩,
    ⟨24, .NoteOn .KickDrum⟩, ⟨48, .NoteOff .KickDrum⟩], 48⟩ (by decide)

/-- C10: delta conversion always returns a grid whose `length` field is `0`,
regardless of the input grid's length, while preserving the events' kinds and
count. -/
theorem claim_C10 (g : EventGrid) :
    g.to_delta.length = 0 ∧
    g.to_delta.events.map (·.event_type) = g.events.map (·.event_type) ∧
    g.to_delta.events.length = g.events.length :=
  ⟨rfl, toDeltaAux_event_types g.events 0, toDeltaAux_length g.events 0⟩

/-- C8: an empty merged stream aborts track emission (the
`"Result has no midi notes"` panic) with no output; every non-empty merged
stream produces tracks. -/
theorem claim_C8 (events : List Event) (num den tempo : Nat) :
    (events = [] → create_tracks events num den tempo = none) ∧
    (events ≠ [] → (create_tracks events num den tempo).isSome = true) := by
  constructor
  · intro h; subst h; rfl
  · intro h
    unfold create_tracks
    cases hl : events.getLast? with
    | none => exact absurd (List.getLast?_eq_none_iff.1 hl) h
    | some lastEv => simp

theorem claim_C8_witness :
    create_tracks [] 4 2 500000 = none ∧
    (create_tracks [⟨0, .NoteOn .KickDrum⟩] 4 2 500000).isSome = true :=
  ⟨(claim_C8 [] 4 2 500000).1 rfl,
   (claim_C8 [⟨0, .NoteOn .KickDrum⟩] 4 2 500000).2 (by decide)⟩

/-- C3: the common length limit is the convergence bar count times the bar
length, the bar count falling back to the hard ceiling of 1000 bars when the
convergence query finds no exact alignment; each present instrument's repeat
count is (number of its top-level pattern phrases) * (length limit ÷ its
total pattern length), with truncating integer division.  Stated under the
side conditions that the `u32` products stay in range and the pattern length
is non-zero (a zero length makes the Rust division panic). -/
theorem claim_C3 (gLen : Group → Nat) (convergesQ : Option Nat) (bar128 : Nat)
    (gs : List Group) (p : Part)
    (hovf : converges_over_bars convergesQ * bar128 < 2 ^ 32)
    (hsum : plain_total gLen gs < 2 ^ 32)
    (hpos : 0 < plain_total gLen gs) :
    length_limit convergesQ bar128 = convergesQ.getD BAR_LIMIT * bar128 ∧
    (convergesQ = none → length_limit convergesQ bar128 = 1000 * bar128) ∧
    (part_plan gLen (length_limit convergesQ bar128) p (some gs)).2 =
      gs.length * (length_limit convergesQ bar128 / plain_total gLen gs) := by
  have hll : length_limit convergesQ bar128 = converges_over_bars convergesQ * bar128 := by
    unfold length_limit
    exact Nat.mod_eq_of_lt hovf
  refine ⟨by rw [hll]; rfl, ?_, ?_⟩
  · intro hq; subst hq; rw [hll]; rfl
  · simp only [part_plan]
    rw [total_128th_eq gLen gs hsum]

theorem claim_C3_witness :
    (0 : Nat) < plain_total (fun _ => 2) [⟨[], .Simple (.Plain .Fourth), 1⟩] ∧
    length_limit none 128 = 1000 * 128 ∧
    (part_plan (fun _ => 2) (length_limit none 128) .KickDrum
        (some [⟨[], .Simple (.Plain .Fourth), 1⟩])).2 =
      [(⟨[], .Simple (.Plain .Fourth), 1⟩ : Group)].length *
        (length_limit none 128 / plain_total (fun _ => 2) [⟨[], .Simple (.Plain .Fourth), 1⟩]) :=
  ⟨by decide,
   (claim_C3 (fun _ => 2) none 128 [⟨[], .Simple (.Plain .Fourth), 1⟩] .KickDrum
      (by decide) (by decide) (by decide)).2.1 rfl,
   (claim_C3 (fun _ => 2) none 128 [⟨[], .Simple (.Plain .Fourth), 1⟩] .KickDrum
      (by decide) (by decide) (by decide)).2.2⟩

theorem flatten_bigRest (p : Part) :
    flatten_group bigRest p 0 = (⟨[], 65534 * 192⟩, 192) := by
  simp [bigRest, flatten_group, flatten_entries, Length.to_ticks, ModdedLength.to_ticks,
    BasicLength.to_ticks, TICKS_PER_QUARTER_NOTE, EventGrid.empty, cycle_grid_no_events]

theorem flatten_bigRestNest (p : Part) :
    flatten_group bigRestNest p 0 = (⟨[], 65534 * (65534 * 192)⟩, 192) := by
  rw [bigRestNest, flatten_group]
  have hfe : flatten_entries [.SingleGroup bigRest] p
      (Length.Simple (.Plain .Fourth)).to_ticks EventGrid.empty 0 =
      (⟨[], 65534 * 192⟩, 192) := by
    simp only [flatten_entries, flatten_bigRest, EventGrid.empty]
    simp
  rw [hfe]
  simp [cycle_grid_no_events]

theorem flatten_bigHit :
    flatten_group (⟨[.SingleNote .Hit], .Simple (.Plain .Fourth), 1⟩ : Group) .KickDrum 192 =
      (⟨[⟨192, .NoteOn .KickDrum⟩, ⟨240, .NoteOff .KickDrum⟩], 240⟩, 240) := by
  have h1 : cycle_grid ⟨[⟨192, .NoteOn .KickDrum⟩, ⟨240, .NoteOff .KickDrum⟩], 240⟩ 1 =
      ⟨[⟨192, .NoteOn .KickDrum⟩, ⟨240, .NoteOff .KickDrum⟩], 240⟩ :=
    cycle_grid_one _ (by decide)
  simp +decide [flatten_group, flatten_entries, Length.to_ticks, ModdedLength.to_ticks,
    BasicLength.to_ticks, TICKS_PER_QUARTER_NOTE, EventGrid.empty, h1]

/-- Flattening `bigPattern` puts the lone hit after a silent span of
`65534 * 65534 * 192 = 824583389952` ticks. -/
theorem flatten_bigPattern :
    flatten_groups .KickDrum bigPattern =
      ⟨[⟨824583390144, .NoteOn .KickDrum⟩, ⟨824583390192, .NoteOff .KickDrum⟩],
        824583390192⟩ := by
  unfold flatten_groups
  rw [bigPattern]
  simp only [List.foldl_cons, List.foldl_nil, flatten_bigRestNest, flatten_bigHit]
  decide

/-- C9 (counterexample): on the concrete pattern `bigPattern` the serialized
track's note deltas do not equal the computed deltas — the `u32` cast and
28-bit conversion truncate the first delta (`824583390144 ≥ 2^28`). -/
theorem claim_C9_counterexample :
    emitted_note_deltas (flatten_groups .KickDrum bigPattern).events 4 2 500000 ≠
      some (computed_deltas (flatten_groups .KickDrum bigPattern).events) := by
  rw [flatten_bigPattern]
  decide

/-- C9 (amended): every emitted track event's delta equals the corresponding
computed delta reduced modulo `2^28` (the `as u32` cast composed with the
28-bit conversion); the emitted deltas equal the computed deltas exactly
whenever every computed delta is below `2^28`. -/
theorem claim_C9_amended (events : List Event) (num den tempo : Nat) (h : events ≠ []) :
    emitted_note_deltas events num den tempo =
      some ((computed_deltas events).map (· % 2 ^ 28)) ∧
    ((∀ d ∈ computed_deltas events, d < 2 ^ 28) →
      emitted_note_deltas events num den tempo = some (computed_deltas events)) := by
  have hmod : ∀ d : Nat, d % 2 ^ 32 % 2 ^ 28 = d % 2 ^ 28 := fun d =>
    Nat.mod_mod_of_dvd d (by norm_num)
  have hmain : emitted_note_deltas events num den tempo =
      some ((computed_deltas events).map (· % 2 ^ 28)) := by
    cases hl : events.getLast? with
    | none => exact absurd (List.getLast?_eq_none_iff.1 hl) h
    | some lastEv =>
      unfold emitted_note_deltas create_tracks
      rw [hl]
      simp [note_track_events, EventGrid.to_delta, computed_deltas, List.map_map,
        List.dropLast_concat, emit_delta, hmod, Function.comp]
      exact fun a _ => Nat.mod_mod_of_dvd a.tick (by norm_num)
  refine ⟨hmain, fun hb => ?_⟩
  rw [hmain]
  congr 1
  calc (computed_deltas events).map (· % 2 ^ 28)
      = (computed_deltas events).map id :=
        List.map_congr_left (fun d hd => Nat.mod_eq_of_lt (hb d hd))
    _ = computed_deltas events := List.map_id _

theorem claim_C9_witness :
    emitted_note_deltas [⟨0, .NoteOn .KickDrum⟩, ⟨24, .NoteOff .KickDrum⟩] 4 2 500000 =
      some [0, 24] :=
  (claim_C9_amended [⟨0, .NoteOn .KickDrum⟩, ⟨24, .NoteOff .KickDrum⟩] 4 2 500000
    (by decide)).2 (by decide)

end Poly
